import Mathlib

/-!
Shallow embedding of `reflow_comments.c`.

Lines are modelled as `List Char`, exactly as delivered by `fgets`: every
line of a file keeps its trailing newline character except possibly the
last one.  Strings built by the C code are modelled as `List Char` as well.
The external `black` formatter invoked by Rule A is modelled as an oracle
`fmt : List Char → Option (List Char)` (the formatted file contents on
success, `none` on failure), mirroring §6's FormatService contract.
-/

namespace Reflow

/-- `MAX_LEN` from the source (the 79-column limit). -/
def MAX_LEN : Nat := 79

/-- C `isspace` in the default locale. -/
def isSpaceC (c : Char) : Bool :=
  c == ' ' || c == '\t' || c == '\n' || c == '\x0b' || c == '\x0c' || c == '\r'

/-- The break-character set `" ,.:;"` used by `wrap_text`. -/
def breakChars : List Char := [' ', ',', '.', ':', ';']

def isBreakChar (c : Char) : Bool := breakChars.contains c

/-- The three-character triple-quote token `"""`. -/
def tq : List Char := ['"', '"', '"']

/-- `strip_crlf`: remove trailing newline and carriage-return characters. -/
def stripCrlf (s : List Char) : List Char :=
  (s.reverse.dropWhile (fun c => c == '\n' || c == '\r')).reverse

/-- `rtrim`: trim trailing whitespace. -/
def rtrim (s : List Char) : List Char :=
  (s.reverse.dropWhile isSpaceC).reverse

/-- `ltrim`: trim leading whitespace (including newlines). -/
def ltrim (s : List Char) : List Char := s.dropWhile isSpaceC

/-- Count of leading whitespace characters (the `indent` loops of the source). -/
def indentOf (s : List Char) : Nat := (s.takeWhile isSpaceC).length

/-- `is_full_line_comment`: after optional indentation the line begins with `#`. -/
def isFullLineComment (s : List Char) : Bool :=
  (s.dropWhile isSpaceC).headD 'x' == '#'

/-- `is_commented_print`: a full-line comment whose text after `#` and
whitespace starts with `print(`. -/
def isCommentedPrint (s : List Char) : Bool :=
  let p := s.dropWhile isSpaceC
  p.headD 'x' == '#' &&
    "print(".data.isPrefixOf ((p.drop 1).dropWhile isSpaceC)

/-- Backward scan of `wrap_text`: the greatest `j ≤ i` with a break character
at index `j` (the C loop `for (i = max_width; i >= 0; i--)`). -/
def scanBack (text : List Char) : Nat → Option Nat
  | 0 => if isBreakChar (text.getD 0 'x') then some 0 else none
  | j + 1 =>
    if isBreakChar (text.getD (j + 1) 'x') then some (j + 1) else scanBack text j

/-- Forward scan of `wrap_text`: the first index in `[lo, lo+cnt)` (and below
the text length) holding a break character. -/
def scanFwd (text : List Char) : Nat → Nat → Option Nat
  | _, 0 => none
  | lo, n + 1 =>
    if lo < text.length then
      if isBreakChar (text.getD lo 'x') then some lo
      else scanFwd text (lo + 1) n
    else none

/-- The cut index chosen by `wrap_text`: backward scan from `max_width`, else
forward scan over `[max_width+1, max_width+10)`, else `max_width` itself. -/
def findCut (text : List Char) (w : Nat) : Nat :=
  match scanBack text w with
  | some i => i
  | none =>
    match scanFwd text (w + 1) 9 with
    | some i => i
    | none => w

/-- The skip loops of `wrap_text`: consecutive break characters starting at the
cut, then consecutive whitespace. -/
def skipAfterCut (rest : List Char) : Nat :=
  let b := rest.takeWhile isBreakChar
  b.length + ((rest.drop b.length).takeWhile isSpaceC).length

/-- Fuelled version of `wrap_text`; the C recursion strictly shrinks the text
whenever `max_width ≥ 1`, so fuel `text.length` is always enough there.  For
`max_width = 0` the C program can recurse forever (a leading non-break,
non-space token with no break character in the next 9 positions gives
`found = 0`, `skip = 0`, so the recursion does not shrink); the fuel base
case returns `[text]` there, so the embedding is faithful only away from
width 0: every theorem below either assumes `1 ≤ w` or carries an indent
bound (`indent < MAX_LEN`, hence width ≥ 1) that keeps the computed width
out of the divergent case. -/
def wrapTextF : Nat → List Char → Nat → List (List Char)
  | 0, text, _ => [text]
  | fuel + 1, text, w =>
    if text.length ≤ w then [text]
    else
      let found := findCut text w
      let skip := skipAfterCut (text.drop found)
      text.take found :: wrapTextF fuel (text.drop (found + skip)) w

/-- `wrap_text` as a list of output lines (the C function returns the same
lines joined by `'\n'`). -/
def wrap_text (text : List Char) (w : Nat) : List (List Char) :=
  wrapTextF text.length text w

/-- `wrap_text` as called with an `int` width that may be negative: the C
comparison `len <= (size_t)max_width` is always true for negative widths, so
the text comes back unsplit (and the C function terminates there).  Width 0
— reachable in Rules C and D at indent exactly `MAX_LEN` — inherits
`wrapTextF`'s infidelity: the C program can diverge while this model returns
lines, so theorems about those rules restrict the indent below `MAX_LEN`
where their conclusion depends on the rule returning at all. -/
def wrapTextC (text : List Char) (w : Int) : List (List Char) :=
  if w < 0 then [text] else wrap_text text w.toNat

/-- Join wrapped lines with `'\n'`, recovering the single C string built by
`wrap_text`. -/
def joinNl : List (List Char) → List Char
  | [] => []
  | [l] => l
  | l :: ls => l ++ '\n' :: joinNl ls

/-- Fuelled `strtok_r` with delimiter `"\n"`; each step consumes at least one
character, so fuel `s.length` is always enough. -/
def strtokNlF : Nat → List Char → List (List Char)
  | 0, _ => []
  | _, [] => []
  | fuel + 1, c :: cs =>
    if c == '\n' then strtokNlF fuel cs
    else (c :: cs.takeWhile (fun d => !(d == '\n'))) ::
      strtokNlF fuel (cs.dropWhile (fun d => !(d == '\n')))

/-- `strtok_r` with delimiter `"\n"`: the maximal nonempty runs of
non-newline characters. -/
def strtokNl (s : List Char) : List (List Char) := strtokNlF s.length s

/-- `n` spaces. -/
def sp (n : Nat) : List Char := List.replicate n ' '

/-- The triple-quoted block assembly shared by Rules A, C and D: an opening
delimiter line, each token of the wrapped text right-trimmed and indented,
and a closing delimiter line. -/
def assembleBlock (ind : Nat) (wrapped : List Char) : List Char :=
  let toks := (strtokNl wrapped).map rtrim
  sp ind ++ tq ++ '\n' :: ((toks.map (fun t => sp ind ++ t ++ ['\n'])).flatten
    ++ sp ind ++ tq ++ ['\n'])

/-- Rule A, `process_commented_print_line`, with the `black` run abstracted as
the oracle `fmt`. -/
def processCommentedPrintLine (fmt : List Char → Option (List Char))
    (line : List Char) : Option (List Char) :=
  let buffer := stripCrlf line
  if buffer.length ≤ MAX_LEN then none
  else if !(isCommentedPrint buffer) then none
  else
    match buffer.findIdx? (fun c => c == '#') with
    | none => none
    | some hashIdx =>
      if MAX_LEN ≤ hashIdx then none
      else
        let afterHash := (buffer.drop (hashIdx + 1)).dropWhile isSpaceC
        if "def ".data.isPrefixOf afterHash then none
        else
          let indent := indentOf buffer
          match fmt afterHash with
          | none => none
          | some formattedRaw =>
            let formatted := stripCrlf formattedRaw
            let formatted2 :=
              if formatted.headD 'x' == '#' then
                (formatted.drop 1).dropWhile isSpaceC
              else formatted
            some (assembleBlock indent formatted2)

/-- Rule B, `split_inline_comment`. -/
def splitInlineComment (line : List Char) : Option (List Char) :=
  let buffer := stripCrlf line
  if buffer.length ≤ MAX_LEN then none
  else
    match buffer.findIdx? (fun c => c == '#') with
    | none => none
    | some hashIdx =>
      if (buffer.dropWhile isSpaceC).headD 'x' == '#' then none
      else
        let codePart := rtrim (buffer.take hashIdx)
        let commentPart := (buffer.drop (hashIdx + 1)).dropWhile isSpaceC
        let indent := indentOf buffer
        some (sp indent ++ '#' :: ' ' :: (commentPart ++ '\n' :: (codePart ++ ['\n'])))

/-- The span consumed by Rule C: consecutive full-line comments from the
start. -/
def commentSpan (ls : List (List Char)) : List (List Char) :=
  ls.takeWhile isFullLineComment

/-- The common indent of Rule C's span (the C accumulator starts at 1000). -/
def commonIndentOf (span : List (List Char)) : Nat :=
  span.foldl (fun a l => min a (indentOf l)) 1000

/-- One line's contribution to Rule C's merged text: drop exactly the common
indent, then a `#` if one immediately follows, then whitespace. -/
def bareContent (common : Nat) (l : List Char) : List Char :=
  let content := l.drop common
  let content2 := if content.headD 'x' == '#' then content.drop 1 else content
  content2.dropWhile isSpaceC

/-- The flattened text Rule C wraps: every span line's `bareContent` followed
by one space, accumulated left to right, then right-trimmed. -/
def mergedTextOf (ls : List (List Char)) : List Char :=
  let span := commentSpan ls
  let common := commonIndentOf span
  rtrim (span.foldl (fun acc l => acc ++ bareContent common l ++ [' ']) [])

/-- Rule C, `merge_comment_block`, returning the replacement text and the
number of consumed lines (`end_index - start`). -/
def mergeCommentBlock (ls : List (List Char)) : List Char × Nat :=
  let span := commentSpan ls
  let common := commonIndentOf span
  let wrapped := ltrim (joinNl (wrapTextC (mergedTextOf ls) ((MAX_LEN : Int) - common)))
  (assembleBlock common wrapped, span.length)

/-- Index of the first occurrence of `"""` (C `strstr`). -/
def findTripleAux : List Char → Nat → Option Nat
  | [], _ => none
  | c :: cs, i =>
    if tq.isPrefixOf (c :: cs) then some i else findTripleAux cs (i + 1)

def findTriple (s : List Char) : Option Nat := findTripleAux s 0

def containsTriple (s : List Char) : Bool := (findTriple s).isSome

/-- Rule D's collection loop over the lines after the opener: verbatim
(CRLF-stripped) lines each followed by one space, until a line containing
`"""` — whose prefix before the marker is added only when nonempty — or the
end of the file.  Returns the collected text and the number of consumed
lines. -/
def collectClose : List (List Char) → List Char × Nat
  | [] => ([], 0)
  | l :: ls =>
    match findTriple l with
    | some k =>
      let temp := l.take k
      (if 0 < temp.length then temp ++ [' '] else [], 1)
    | none =>
      let temp := stripCrlf l
      let r := collectClose ls
      (temp ++ ' ' :: r.1, r.2 + 1)

/-- The flattened text Rule D wraps: the opener's text after the first `"""`
(with a trailing space, when nonempty) followed by `collectClose` of the rest. -/
def tripleBlob (l : List Char) (rest : List (List Char)) : List Char :=
  match findTriple l with
  | none => []
  | some k =>
    let openRest := l.drop (k + 3)
    (if openRest.isEmpty then [] else openRest ++ [' ']) ++ (collectClose rest).1

/-- Rule D, `process_triple_quote_block`, returning the replacement text and
the number of consumed lines (`end_index - start`). -/
def processTripleQuoteBlock (l : List Char) (rest : List (List Char)) :
    Option (List Char × Nat) :=
  match findTriple l with
  | none => none
  | some _ =>
    let ind := indentOf l
    let wrapped := ltrim (joinNl (wrapTextC (tripleBlob l rest) ((MAX_LEN : Int) - ind)))
    some (assembleBlock ind wrapped, (collectClose rest).2 + 1)

/-- The Engine (`process_file`'s scan loop): at each position try Rule D
(guarded by the trimmed line starting with `"""`), then Rule A, then Rule B,
then Rule C (guarded by a full-line comment whose raw length, newline
included, exceeds `MAX_LEN`); otherwise copy the line unchanged.  Output is
the concatenation written to the file. -/
def engineGoF (fmt : List Char → Option (List Char)) :
    Nat → List (List Char) → List Char
  | 0, _ => []
  | _, [] => []
  | fuel + 1, l :: rest =>
    let dRes :=
      if tq.isPrefixOf (l.dropWhile isSpaceC) then processTripleQuoteBlock l rest
      else none
    match dRes with
    | some br => br.1 ++ engineGoF fmt fuel (rest.drop (br.2 - 1))
    | none =>
      match processCommentedPrintLine fmt l with
      | some out => out ++ engineGoF fmt fuel rest
      | none =>
        match splitInlineComment l with
        | some out => out ++ engineGoF fmt fuel rest
        | none =>
          if isFullLineComment l = true ∧ MAX_LEN < l.length then
            let bc := mergeCommentBlock (l :: rest)
            bc.1 ++ engineGoF fmt fuel (rest.drop (bc.2 - 1))
          else l ++ engineGoF fmt fuel rest

/-- The Engine over a full file; each step consumes at least one line, so
fuel `ls.length` is always enough. -/
def engineGo (fmt : List Char → Option (List Char)) (ls : List (List Char)) :
    List Char :=
  engineGoF fmt ls.length ls

/-!
Specification-side definitions.  These follow the wording of the spec (not
the source) and exist to be compared against the source embedding above.
-/

/-- Join strings with a single space between consecutive elements. -/
def joinSp : List (List Char) → List Char
  | [] => []
  | [l] => l
  | l :: ls => l ++ ' ' :: joinSp ls

/-- Modelled from the spec (§4.5, claim C4): one span line's bare content,
"strip leading whitespace + marker + whitespace". -/
def bareContentSpec (l : List Char) : List Char :=
  ((l.dropWhile isSpaceC).drop 1).dropWhile isSpaceC

/-- Modelled from the spec (§4.5, claim C4): the merged text, "concatenate
all bare contents separated by one space, then right-trim". -/
def mergedTextSpec (ls : List (List Char)) : List Char :=
  rtrim (joinSp ((commentSpan ls).map bareContentSpec))

/-- Modelled from the spec (§4.6, claim C10): the close scan over the lines
after the opener stops at the first line containing the delimiter (consuming
it) or at the end of the file. -/
def closeScanSpec : List (List Char) → Nat
  | [] => 0
  | r :: rs => if containsTriple r then 1 else closeScanSpec rs + 1

/-- Split a flat text back into `fgets`-style lines: every line keeps its
trailing newline except possibly the last. -/
def linesOf (s : List Char) : List (List Char) :=
  match s with
  | [] => []
  | c :: cs =>
    if c == '\n' then ['\n'] :: linesOf cs
    else
      match linesOf cs with
      | [] => [[c]]
      | l :: ls => (c :: l) :: ls

/-- One application of the BlockReflower to a block given as lines (the text
it replaces the block with). -/
def reflowOnce (ls : List (List Char)) : List Char :=
  match ls with
  | [] => []
  | l :: rest =>
    match processTripleQuoteBlock l rest with
    | some br => br.1
    | none => []

/-- The lines of a boxed block: delimiter line, content lines, delimiter
line, all at one indent, newline-terminated. -/
def blockLines (ind : Nat) (contents : List (List Char)) : List (List Char) :=
  (sp ind ++ tq ++ ['\n']) ::
    (contents.map (fun c => sp ind ++ c ++ ['\n']) ++ [sp ind ++ tq ++ ['\n']])

/-- Claim C7's hypothesis "a boxed block whose lines are already correctly
wrapped at `max_width`": nonempty content, every line within `MAX_LEN`, and
re-wrapping the space-joined content at the available width
`MAX_LEN − indent` reproduces exactly the same content lines. -/
def correctlyWrappedBlock (ind : Nat) (contents : List (List Char)) : Prop :=
  contents ≠ [] ∧ (∀ c ∈ contents, (sp ind ++ c).length ≤ MAX_LEN) ∧
    (wrap_text (joinSp contents) (MAX_LEN - ind)).map rtrim = contents

/-- The decomposition produced by the Wrapper: the input text is the output
lines in order, separated by runs of dropped characters, every one of which
is a break character or whitespace (claim C3's amended content-preservation
statement). -/
inductive WrapJoin : List Char → List (List Char) → Prop
  | last (t : List Char) : WrapJoin t [t]
  | cons (first dropped rest : List Char) (ls : List (List Char))
      (hdrop : ∀ c ∈ dropped, isBreakChar c = true ∨ isSpaceC c = true)
      (htail : WrapJoin rest ls) :
      WrapJoin (first ++ (dropped ++ rest)) (first :: ls)

/-! Concrete inputs used by counterexamples and witnesses. -/

/-- A full-line comment of visible length exactly 79, newline-terminated
(raw length 80). -/
def c2line : List Char := '#' :: ' ' :: (List.replicate 77 'a' ++ ['\n'])

/-- Two comment lines with different indents (the second deeper). -/
def c4l0 : List Char := '#' :: ' ' :: (List.replicate 78 'a' ++ ['\n'])

def c4l1 : List Char := "  # bbb\n".data

/-- Two comment lines with the same indent. -/
def c4u0 : List Char := '#' :: ' ' :: (List.replicate 78 'a' ++ ['\n'])

def c4u1 : List Char := "# bbb\n".data

/-- A line that contains `"""` after code, not at its start. -/
def c5line : List Char := "x \"\"\" y\n".data

/-- An over-width commented-out print line. -/
def c6line : List Char := "# print(".data ++ List.replicate 80 'a' ++ ')' :: ['\n']

/-- The block Rule A produces for `c6line` under the echo oracle. -/
def c6out : List Char :=
  "\"\"\"\n".data ++ ("print(".data ++ (List.replicate 80 'a' ++ ")\n\"\"\"\n".data))

/-- A format oracle that echoes its input (a deterministic FormatService
double). -/
def fmtEcho : List Char → Option (List Char) := fun c => some c

/-- A format oracle that always fails. -/
def fmtNone : List Char → Option (List Char) := fun _ => none

/-- Content lines that are correctly wrapped at width 79 and indent 0, on
which a second reflow pass differs from the first. -/
def c7L1 : List Char := List.replicate 75 'a' ++ [' ', ' ', 'b', ',']

def c7L2 : List Char := "cc dd".data

/-- A block opener with trailing content whose block is never closed. -/
def c9opener : List Char := "\"\"\" abc\n".data

/-- A one-line block: the opener line carries a second delimiter. -/
def c10opener : List Char := "\"\"\"abc\"\"\"\n".data

/-- Lines after the one-line opener; the second contains the delimiter. -/
def c10rest : List (List Char) := ["x\n".data, "y\"\"\"z\n".data]

/-- The §8 Rule-B example line (113 characters). -/
def c8line : List Char :=
  "    total = compute(x, y)  # sums the two inputs after validation and rounding adjustments are fully applied here".data

/-- A tab-indented over-width line with an inline comment. -/
def c8tab : List Char :=
  '\t' :: ("x = foo(y)  # note ".data ++ List.replicate 70 'a' ++ ['\n'])

/-!
Helper lemmas.
-/

theorem mem_takeWhile_pred {α : Type} (p : α → Bool) :
    ∀ (l : List α), ∀ a ∈ l.takeWhile p, p a = true := by
  intro l
  induction l with
  | nil => intro a ha; simp [List.takeWhile] at ha
  | cons c cs ih =>
    intro a ha
    rw [List.takeWhile_cons] at ha
    by_cases hc : p c
    · rw [if_pos hc] at ha
      rcases List.mem_cons.mp ha with rfl | ha
      · exact hc
      · exact ih a ha
    · rw [if_neg hc] at ha
      simp at ha

theorem take_takeWhile_length {α : Type} (p : α → Bool) :
    ∀ (l : List α), l.take (l.takeWhile p).length = l.takeWhile p := by
  intro l
  induction l with
  | nil => simp
  | cons c cs ih =>
    rw [List.takeWhile_cons]
    by_cases hc : p c
    · simp [hc, ih]
    · simp [hc]

theorem scanBack_le (text : List Char) :
    ∀ i j, scanBack text i = some j → j ≤ i := by
  intro i
  induction i with
  | zero =>
    intro j h
    rw [scanBack] at h
    split at h
    · simp at h; omega
    · simp at h
  | succ k ih =>
    intro j h
    rw [scanBack] at h
    split at h
    · simp at h; omega
    · exact le_trans (ih j h) (Nat.le_succ k)

theorem scanBack_break (text : List Char) :
    ∀ i j, scanBack text i = some j → isBreakChar (text.getD j 'x') = true := by
  intro i
  induction i with
  | zero =>
    intro j h
    rw [scanBack] at h
    split at h
    · simp at h; subst h; assumption
    · simp at h
  | succ k ih =>
    intro j h
    rw [scanBack] at h
    split at h
    · simp at h; subst h; assumption
    · exact ih j h

theorem scanFwd_ge (text : List Char) :
    ∀ n lo j, scanFwd text lo n = some j → lo ≤ j := by
  intro n
  induction n with
  | zero => intro lo j h; rw [scanFwd] at h; simp at h
  | succ k ih =>
    intro lo j h
    rw [scanFwd] at h
    split at h
    · split at h
      · simp at h; omega
      · exact le_trans (Nat.le_succ lo) (ih (lo + 1) j h)
    · simp at h

theorem scanFwd_lt (text : List Char) :
    ∀ n lo j, scanFwd text lo n = some j → j < lo + n := by
  intro n
  induction n with
  | zero => intro lo j h; rw [scanFwd] at h; simp at h
  | succ k ih =>
    intro lo j h
    rw [scanFwd] at h
    split at h
    · split at h
      · simp at h; omega
      · have := ih (lo + 1) j h; omega
    · simp at h

theorem findCut_le (text : List Char) (w : Nat) : findCut text w ≤ w + 9 := by
  rw [findCut]
  split
  · next i h => exact le_trans (scanBack_le text w i h) (by omega)
  · split
    · next i h => have := scanFwd_lt text 9 (w + 1) i h; omega
    · omega

theorem findCut_zero_break (text : List Char) (w : Nat) (hw : 1 ≤ w)
    (h : findCut text w = 0) : isBreakChar (text.getD 0 'x') = true := by
  rw [findCut] at h
  split at h
  · next i hi => subst h; exact scanBack_break text w 0 hi
  · split at h
    · next i hi =>
      subst h
      have := scanFwd_ge text 9 (w + 1) 0 hi
      omega
    · omega

theorem cut_skip_pos (text : List Char) (w : Nat) (hw : 1 ≤ w)
    (hlen : w < text.length) :
    1 ≤ findCut text w + skipAfterCut (text.drop (findCut text w)) := by
  rcases Nat.eq_zero_or_pos (findCut text w) with h0 | hpos
  · have hbr := findCut_zero_break text w hw h0
    rw [h0]
    simp only [List.drop_zero, skipAfterCut, Nat.zero_add]
    cases text with
    | nil => simp at hlen
    | cons c cs =>
      have : isBreakChar c = true := by simpa using hbr
      rw [List.takeWhile_cons, if_pos this]
      simp only [List.length_cons]
      omega
  · omega

theorem wrapTextF_bound :
    ∀ fuel (text : List Char) (w : Nat), 1 ≤ w → text.length ≤ fuel →
      ∀ l ∈ wrapTextF fuel text w, l.length ≤ w + 9 := by
  intro fuel
  induction fuel with
  | zero =>
    intro text w hw hlen l hl
    rw [wrapTextF] at hl
    rcases List.mem_singleton.mp hl with rfl
    omega
  | succ k ih =>
    intro text w hw hlen l hl
    rw [wrapTextF] at hl
    split at hl
    · next hle =>
      rcases List.mem_singleton.mp hl with rfl
      omega
    · next hgt =>
      rcases List.mem_cons.mp hl with rfl | hl
      · calc (text.take (findCut text w)).length ≤ findCut text w := by
              simp [List.length_take]
          _ ≤ w + 9 := findCut_le text w
      · refine ih _ w hw ?_ l hl
        have hpos := cut_skip_pos text w hw (by omega)
        simp only [List.length_drop]
        omega

/-!
Claim C1.
-/

/-- C1 counterexample: at `max_width = 5` the forward scan emits the line
`"aaaaaaaa"` of length 8 > 5, so the claim that no output line of
`wrap_text` ever exceeds `max_width` is false. -/
theorem C1_counterexample :
    ("aaaaaaaa".data ∈ wrap_text ("aaaaaaaa,bb".data) 5) ∧
      ¬ (∀ l ∈ wrap_text ("aaaaaaaa,bb".data) 5, l.length ≤ 5) := by
  constructor
  · decide
  · intro h
    have := h ("aaaaaaaa".data) (by decide)
    simp at this

/-- C1 amended: for `max_width ≥ 1` every line of `wrap_text` has length at
most `max_width + 9` (the forward scan can exceed `max_width` by up to 9;
the backward scan and the hard-break fallback stay within `max_width`). -/
theorem C1_wrap_bound (text : List Char) (w : Nat) (hw : 1 ≤ w) :
    ∀ l ∈ wrap_text text w, l.length ≤ w + 9 :=
  wrapTextF_bound text.length text w hw (le_refl _)

/-- C1 witness. -/
theorem C1_wrap_bound_witness :
    (1 ≤ 5) ∧ ∀ l ∈ wrap_text ("aaaaaaaa,bb".data) 5, l.length ≤ 5 + 9 :=
  ⟨by decide, C1_wrap_bound ("aaaaaaaa,bb".data) 5 (by decide)⟩

/-!
Claim C3.
-/

theorem wrapTextF_wrapJoin :
    ∀ fuel (text : List Char) (w : Nat), 1 ≤ w → text.length ≤ fuel →
      WrapJoin text (wrapTextF fuel text w) := by
  intro fuel
  induction fuel with
  | zero =>
    intro text w hw hlen
    rw [wrapTextF]
    exact WrapJoin.last text
  | succ k ih =>
    intro text w hw hlen
    rw [wrapTextF]
    split
    · exact WrapJoin.last text
    · next hgt =>
      have hdecomp : text =
          text.take (findCut text w) ++
            ((text.drop (findCut text w)).take (skipAfterCut (text.drop (findCut text w))) ++
              text.drop (findCut text w + skipAfterCut (text.drop (findCut text w)))) := by
        have h1 : text.drop (findCut text w + skipAfterCut (text.drop (findCut text w))) =
            (text.drop (findCut text w)).drop (skipAfterCut (text.drop (findCut text w))) := by
          rw [List.drop_drop, Nat.add_comm]
        rw [h1, List.take_append_drop, List.take_append_drop]
      have hdropped : ∀ c ∈ (text.drop (findCut text w)).take
            (skipAfterCut (text.drop (findCut text w))),
          isBreakChar c = true ∨ isSpaceC c = true := by
        intro c hc
        rw [skipAfterCut] at hc
        rw [List.take_add] at hc
        rcases List.mem_append.mp hc with hc | hc
        · rw [take_takeWhile_length] at hc
          exact Or.inl (mem_takeWhile_pred isBreakChar _ c hc)
        · rw [take_takeWhile_length] at hc
          exact Or.inr (mem_takeWhile_pred isSpaceC _ c hc)
      have htail : WrapJoin
          (text.drop (findCut text w + skipAfterCut (text.drop (findCut text w))))
          (wrapTextF k
            (text.drop (findCut text w + skipAfterCut (text.drop (findCut text w)))) w) := by
        refine ih _ w hw ?_
        have hpos := cut_skip_pos text w hw (by omega)
        simp only [List.length_drop]
        omega
      have hc := WrapJoin.cons (text.take (findCut text w))
        ((text.drop (findCut text w)).take (skipAfterCut (text.drop (findCut text w))))
        (text.drop (findCut text w + skipAfterCut (text.drop (findCut text w))))
        _ hdropped htail
      rw [← hdecomp] at hc
      exact hc

/-- C3 counterexample: the Wrapper drops the comma of `"abc,def"` at the cut,
so a non-whitespace character of the input is absent from every output line
and re-joining cannot reproduce the whitespace-normalized input. -/
theorem C3_counterexample :
    (',' ∈ ("abc,def".data)) ∧ isSpaceC ',' = false ∧
      (',' ∉ (wrap_text ("abc,def".data) 3).flatten) := by
  refine ⟨by decide, by decide, by decide⟩

/-- C3 amended: for `w ≥ 1` the input text is exactly the output lines of
`wrap_text` in order, separated by runs of dropped characters, each of which
is a break character (space, comma, period, colon, semicolon) or whitespace;
so re-joining with single spaces reproduces the text with each such cut run
replaced by one space, and no other character is ever dropped. -/
theorem C3_wrap_join (text : List Char) (w : Nat) (hw : 1 ≤ w) :
    WrapJoin text (wrap_text text w) :=
  wrapTextF_wrapJoin text.length text w hw (le_refl _)

/-- C3 witness. -/
theorem C3_wrap_join_witness :
    (1 ≤ 3) ∧ WrapJoin ("abc,def".data) (wrap_text ("abc,def".data) 3) :=
  ⟨by decide, C3_wrap_join ("abc,def".data) 3 (by decide)⟩

/-!
Claim C2.
-/

theorem length_stripCrlf_le (s : List Char) : (stripCrlf s).length ≤ s.length := by
  rw [stripCrlf]
  calc ((s.reverse.dropWhile (fun c => c == '\n' || c == '\r')).reverse).length
      = (s.reverse.dropWhile (fun c => c == '\n' || c == '\r')).length :=
        List.length_reverse _
    _ ≤ s.reverse.length := (List.dropWhile_suffix _).sublist.length_le
    _ = s.length := List.length_reverse _

theorem processCommentedPrintLine_short (fmt : List Char → Option (List Char))
    (l : List Char) (h : l.length ≤ MAX_LEN) :
    processCommentedPrintLine fmt l = none := by
  have hb : (stripCrlf l).length ≤ MAX_LEN := le_trans (length_stripCrlf_le l) h
  simp [processCommentedPrintLine, hb]

theorem splitInlineComment_short (l : List Char) (h : l.length ≤ MAX_LEN) :
    splitInlineComment l = none := by
  have hb : (stripCrlf l).length ≤ MAX_LEN := le_trans (length_stripCrlf_le l) h
  simp [splitInlineComment, hb]

/-- C2 counterexample: a full-line comment of visible length exactly 79
(raw length 80, newline included) satisfies the claim's premise — length at
most `max_width`, not part of a boxed block or of an earlier comment run —
yet the Engine replaces it by a triple-quoted block, because Rule C's length
check `strlen(lines[i]) > MAX_LEN` counts the trailing newline. -/
theorem C2_counterexample :
    (stripCrlf c2line).length ≤ MAX_LEN ∧
      tq.isPrefixOf (c2line.dropWhile isSpaceC) = false ∧
      engineGo fmtNone [c2line] ≠ c2line := by
  refine ⟨by decide, by decide, by decide⟩

/-- C2 amended: the Engine copies a line unchanged whenever its raw length
(trailing newline included) is at most 79 — i.e. its visible length is at
most 78 for newline-terminated lines — and it does not open a boxed block;
a full-comment line of visible length exactly 79 is instead merged by Rule
C, whose length check counts the newline character. -/
theorem C2_identity (fmt : List Char → Option (List Char)) (l : List Char)
    (rest : List (List Char)) (hlen : l.length ≤ MAX_LEN)
    (hD : tq.isPrefixOf (l.dropWhile isSpaceC) = false) :
    engineGo fmt (l :: rest) = l ++ engineGo fmt rest := by
  have hA := processCommentedPrintLine_short fmt l hlen
  have hB := splitInlineComment_short l hlen
  have hC : ¬ (MAX_LEN < l.length) := not_lt.mpr hlen
  rw [engineGo, engineGo, List.length_cons, engineGoF]
  simp [hD, hA, hB, hC]

/-- C2 witness. -/
theorem C2_identity_witness :
    engineGo fmtNone ["x\n".data, "y".data] =
      "x\n".data ++ engineGo fmtNone ["y".data] :=
  C2_identity fmtNone ("x\n".data) ["y".data] (by decide) (by decide)

/-!
Claim C4.
-/

theorem dropWhile_append_all (p : Char → Bool) :
    ∀ (xs ys : List Char), (∀ x ∈ xs, p x = true) →
      (xs ++ ys).dropWhile p = ys.dropWhile p := by
  intro xs
  induction xs with
  | nil => simp
  | cons c t ih =>
    intro ys h
    rw [List.cons_append, List.dropWhile_cons, if_pos (h c (by simp))]
    exact ih ys (fun x hx => h x (by simp [hx]))

theorem rtrim_append_spaces (x s : List Char) (h : ∀ a ∈ s, isSpaceC a = true) :
    rtrim (x ++ s) = rtrim x := by
  rw [rtrim, rtrim, List.reverse_append]
  rw [dropWhile_append_all isSpaceC s.reverse x.reverse
    (fun a ha => h a (List.mem_reverse.mp ha))]

theorem foldl_bare (common : Nat) :
    ∀ (ls : List (List Char)) (acc : List Char),
      ls.foldl (fun a l => a ++ bareContent common l ++ [' ']) acc
        = acc ++ (ls.map (fun l => bareContent common l ++ [' '])).flatten := by
  intro ls
  induction ls with
  | nil => simp
  | cons l t ih =>
    intro acc
    rw [List.foldl_cons, List.map_cons, List.flatten_cons, ih]
    simp [List.append_assoc]

theorem joinSp_cons_cons (a b : List Char) (t : List (List Char)) :
    joinSp (a :: b :: t) = a ++ ' ' :: joinSp (b :: t) := rfl

theorem flatten_map_space (f : List Char → List Char) :
    ∀ (ls : List (List Char)), ls ≠ [] →
      (ls.map (fun l => f l ++ [' '])).flatten = joinSp (ls.map f) ++ [' '] := by
  intro ls
  induction ls with
  | nil => intro h; simp at h
  | cons x t ih =>
    intro _
    cases t with
    | nil => simp [joinSp]
    | cons y t2 =>
      rw [List.map_cons, List.flatten_cons, ih (by simp)]
      simp only [List.map_cons]
      rw [joinSp_cons_cons]
      simp [List.append_assoc]

theorem bareContent_eq_spec (common : Nat) (l : List Char)
    (hind : indentOf l = common) (hcom : isFullLineComment l = true) :
    bareContent common l = bareContentSpec l := by
  have hdrop : l.drop common = l.dropWhile isSpaceC := by
    conv_lhs => rw [(List.takeWhile_append_dropWhile (p := isSpaceC) (l := l)).symm]
    rw [← hind, indentOf, List.drop_left]
  have hhead : (l.dropWhile isSpaceC).headD 'x' == '#' := by
    rw [isFullLineComment] at hcom; exact hcom
  rw [bareContent, bareContentSpec]
  simp only [hdrop, hhead, if_true]

/-- C4 counterexample: on a span whose second line is indented deeper than
the common indent, Rule C's merged text keeps that line's `#` marker
(the code only skips the common indent before looking for the marker), so
it differs from the spec's "strip leading whitespace + marker + whitespace
from every line, join with single spaces, right-trim". -/
theorem C4_counterexample :
    (isFullLineComment c4l0 = true ∧ MAX_LEN < c4l0.length) ∧
      mergedTextOf [c4l0, c4l1] ≠ mergedTextSpec [c4l0, c4l1] := by
  refine ⟨by decide, by decide⟩

/-- C4 amended: when every line of the span has indent equal to the common
indent, Rule C's merged text is exactly the bare contents (common indent,
then the marker, then following whitespace stripped; each bare content
keeps its line's trailing newline) joined with single spaces and
right-trimmed; a line indented deeper than the common indent instead keeps
its marker and extra leading whitespace. -/
theorem C4_merged (ls : List (List Char))
    (h : ∀ l ∈ commentSpan ls, indentOf l = commonIndentOf (commentSpan ls)) :
    mergedTextOf ls = mergedTextSpec ls := by
  rw [mergedTextOf, mergedTextSpec]
  rcases eq_or_ne (commentSpan ls) [] with hsp | hsp
  · rw [hsp]
    simp [joinSp]
  · rw [foldl_bare, flatten_map_space _ _ hsp, List.nil_append,
      rtrim_append_spaces _ [' '] (by intro a ha; simp at ha; simp [ha, isSpaceC])]
    congr 1
    apply congrArg
    apply List.map_congr_left
    intro l hl
    exact bareContent_eq_spec _ l (h l hl)
      (mem_takeWhile_pred isFullLineComment ls l hl)

/-- C4 witness. -/
theorem C4_merged_witness : mergedTextOf [c4u0, c4u1] = mergedTextSpec [c4u0, c4u1] :=
  C4_merged [c4u0, c4u1] (by decide)

/-!
Claim C5.
-/

theorem isPrefixOf_iff_exists :
    ∀ (p s : List Char), p.isPrefixOf s = true ↔ ∃ t, s = p ++ t := by
  intro p
  induction p with
  | nil =>
    intro s
    simp [List.isPrefixOf]
  | cons a as ih =>
    intro s
    cases s with
    | nil =>
      simp [List.isPrefixOf]
    | cons b bs =>
      rw [List.isPrefixOf]
      rw [Bool.and_eq_true, beq_iff_eq, ih bs]
      constructor
      · rintro ⟨rfl, t, rfl⟩
        exact ⟨t, rfl⟩
      · rintro ⟨t, ht⟩
        injection ht with h1 h2
        exact ⟨h1.symm, t, h2⟩

theorem findTripleAux_isSome :
    ∀ (s : List Char) (i : Nat),
      (findTripleAux s i).isSome = true ↔ ∃ a b, s = a ++ (tq ++ b) := by
  intro s
  induction s with
  | nil =>
    intro i
    rw [findTripleAux]
    constructor
    · intro h; simp at h
    · rintro ⟨a, b, hab⟩
      have hlen : ([] : List Char).length = (a ++ (tq ++ b)).length := by rw [hab]
      simp [tq] at hlen
      omega
  | cons c cs ih =>
    intro i
    rw [findTripleAux]
    split
    · next hpre =>
      simp only [Option.isSome_some, true_iff]
      rcases (isPrefixOf_iff_exists tq (c :: cs)).mp hpre with ⟨t, ht⟩
      exact ⟨[], t, by rw [ht]; rfl⟩
    · next hpre =>
      rw [ih (i + 1)]
      constructor
      · rintro ⟨a, b, hab⟩
        exact ⟨c :: a, b, by rw [List.cons_append, hab]⟩
      · rintro ⟨a, b, hab⟩
        cases a with
        | nil =>
          exfalso
          apply hpre
          rw [List.nil_append] at hab
          exact (isPrefixOf_iff_exists tq (c :: cs)).mpr ⟨b, hab⟩
        | cons a0 a2 =>
          rw [List.cons_append] at hab
          injection hab with h1 h2
          exact ⟨a2, b, h2⟩

theorem containsTriple_iff (s : List Char) :
    containsTriple s = true ↔ ∃ a b, s = a ++ (tq ++ b) := by
  rw [containsTriple, findTriple]
  exact findTripleAux_isSome s 0

theorem processTripleQuoteBlock_isSome (l : List Char) (ls : List (List Char))
    (h : (findTriple l).isSome = true) :
    (processTripleQuoteBlock l ls).isSome = true := by
  rcases Option.isSome_iff_exists.mp h with ⟨k, hk⟩
  rw [processTripleQuoteBlock, hk]
  simp

/-- C5 counterexample: the line `x \"\"\" y` contains the triple-quote token
after its (empty) leading whitespace, yet the Engine copies it unchanged —
Rule D's guard requires the trimmed line to START with the token, not merely
contain it. -/
theorem C5_counterexample :
    containsTriple (c5line.dropWhile isSpaceC) = true ∧
      tq.isPrefixOf (c5line.dropWhile isSpaceC) = false ∧
      engineGo fmtNone [c5line] = c5line := by
  refine ⟨by decide, by decide, by decide⟩

/-- C5 amended: the Engine's Rule-D guard holds at a line exactly when the
line consists of whitespace followed by the triple-quote token (i.e. the
line, after leading whitespace, BEGINS with the token), and whenever the
guard holds at an opener indented less than `MAX_LEN` — so the available
width is positive and the C wrapper terminates — the rule does fire
(`process_triple_quote_block` returns a replacement).  At indent exactly
`MAX_LEN` the available width is 0 and the C program can recurse forever,
so the firing statement is restricted to the domain where the embedding
coincides with the program. -/
theorem C5_ruleD_guard (l : List Char) (ls : List (List Char)) :
    (tq.isPrefixOf (l.dropWhile isSpaceC) = true ↔
      ∃ pre rest, (∀ c ∈ pre, isSpaceC c = true) ∧ l = pre ++ (tq ++ rest)) ∧
    (tq.isPrefixOf (l.dropWhile isSpaceC) = true → indentOf l < MAX_LEN →
      (processTripleQuoteBlock l ls).isSome = true) := by
  constructor
  · constructor
    · intro hpre
      rcases (isPrefixOf_iff_exists tq (l.dropWhile isSpaceC)).mp hpre with ⟨t, ht⟩
      refine ⟨l.takeWhile isSpaceC, t, ?_, ?_⟩
      · exact mem_takeWhile_pred isSpaceC l
      · rw [← ht, List.takeWhile_append_dropWhile]
    · rintro ⟨pre, rest, hsp, rfl⟩
      rw [dropWhile_append_all isSpaceC pre (tq ++ rest) hsp]
      rw [tq, List.cons_append, List.dropWhile_cons, if_neg (by decide)]
      exact (isPrefixOf_iff_exists _ _).mpr ⟨rest, rfl⟩
  · intro hpre _hind
    apply processTripleQuoteBlock_isSome
    rcases (isPrefixOf_iff_exists tq (l.dropWhile isSpaceC)).mp hpre with ⟨t, ht⟩
    show containsTriple l = true
    apply (containsTriple_iff l).mpr
    refine ⟨l.takeWhile isSpaceC, t, ?_⟩
    rw [← ht, List.takeWhile_append_dropWhile]

/-!
Claim C6.
-/

theorem stripCrlf_append_exists (l : List Char) : ∃ t, l = stripCrlf l ++ t := by
  obtain ⟨t, ht⟩ :=
    List.dropWhile_suffix (l := l.reverse) (p := fun c => c == '\n' || c == '\r')
  refine ⟨t.reverse, ?_⟩
  rw [stripCrlf]
  conv_lhs => rw [← List.reverse_reverse l, ← ht]
  rw [List.reverse_append]

theorem dropWhile_append_hash :
    ∀ (a t r : List Char), a.dropWhile isSpaceC = '#' :: r →
      (a ++ t).dropWhile isSpaceC = '#' :: (r ++ t) := by
  intro a
  induction a with
  | nil => intro t r h; simp at h
  | cons c cs ih =>
    intro t r h
    rw [List.dropWhile_cons] at h
    rw [List.cons_append, List.dropWhile_cons]
    by_cases hc : isSpaceC c = true
    · rw [if_pos hc] at h ⊢
      exact ih t r h
    · rw [if_neg hc] at h ⊢
      injection h with h1 h2
      rw [h1, h2]

theorem isCommentedPrint_head (b : List Char) (h : isCommentedPrint b = true) :
    ∃ r, b.dropWhile isSpaceC = '#' :: r := by
  rw [isCommentedPrint] at h
  simp only [Bool.and_eq_true, beq_iff_eq] at h
  cases hdw : b.dropWhile isSpaceC with
  | nil => rw [hdw] at h; simp at h
  | cons c r =>
    rw [hdw] at h
    exact ⟨r, by rw [show c = '#' from h.1]⟩

theorem processCommentedPrintLine_isCommentedPrint
    (fmt : List Char → Option (List Char)) (l out : List Char)
    (h : processCommentedPrintLine fmt l = some out) :
    isCommentedPrint (stripCrlf l) = true := by
  rw [processCommentedPrintLine] at h
  split at h
  · simp at h
  · split at h
    · simp at h
    · next h2 => simpa using h2

theorem tq_not_prefixOf_comment (l : List Char)
    (h : isCommentedPrint (stripCrlf l) = true) :
    tq.isPrefixOf (l.dropWhile isSpaceC) = false := by
  obtain ⟨r, hr⟩ := isCommentedPrint_head _ h
  obtain ⟨t, ht⟩ := stripCrlf_append_exists l
  have hd := dropWhile_append_hash (stripCrlf l) t r hr
  rw [← ht] at hd
  rw [hd, tq]
  rfl

/-- C6: the Engine tries Rule D, then A, then B, then C in that order (this
is the shape of `engineGo`); in particular when Rule A succeeds on a line
that is also a Rule-C candidate (a full comment longer than the threshold),
the Engine emits Rule A's formatted block, consumes exactly one line, and
Rule C is not applied. -/
theorem C6_precedence (fmt : List Char → Option (List Char)) (l out : List Char)
    (ls : List (List Char))
    (hA : processCommentedPrintLine fmt l = some out)
    (_hCfull : isFullLineComment l = true) (_hClen : MAX_LEN < l.length) :
    engineGo fmt (l :: ls) = out ++ engineGo fmt ls := by
  have hcp := processCommentedPrintLine_isCommentedPrint fmt l out hA
  have hD := tq_not_prefixOf_comment l hcp
  simp only [engineGo, List.length_cons]
  rw [engineGoF]
  simp [hD, hA]

/-- C6 witness: on a 90-character `# print(...)` line (also a Rule-C
candidate) with an echoing FormatService, the Engine outputs Rule A's boxed
block and moves on by one line. -/
theorem C6_precedence_witness :
    engineGo fmtEcho [c6line] = c6out ++ engineGo fmtEcho [] :=
  C6_precedence fmtEcho c6line c6out [] (by decide) (by decide) (by decide)

/-!
Claim C8.
-/

theorem linesOf_append_newline :
    ∀ (x y : List Char), '\n' ∉ x →
      linesOf (x ++ '\n' :: y) = (x ++ ['\n']) :: linesOf y := by
  intro x
  induction x with
  | nil =>
    intro y _
    rw [List.nil_append, linesOf]
    simp
  | cons c cs ih =>
    intro y h
    rw [List.cons_append, linesOf]
    have hc : ¬ (c == '\n') = true := by
      simp only [beq_iff_eq]
      exact fun hh => h (by simp [hh])
    rw [if_neg hc, ih y (fun hm => h (by simp [hm]))]
    rfl

theorem mem_rtrim (s : List Char) (a : Char) (ha : a ∈ rtrim s) : a ∈ s := by
  rw [rtrim] at ha
  rw [List.mem_reverse] at ha
  have := (List.dropWhile_suffix isSpaceC (l := s.reverse)).sublist.subset ha
  exact List.mem_reverse.mp this

theorem mem_dropWhile_sub (p : Char → Bool) (s : List Char) (a : Char)
    (ha : a ∈ s.dropWhile p) : a ∈ s :=
  (List.dropWhile_suffix p (l := s)).sublist.subset ha

/-- C8 counterexample: on a tab-indented over-width line with an inline
comment the claim's premises hold and the original indent is the single tab
character, yet the emitted comment line begins with a space: the code
rebuilds the indent as spaces (one per leading-whitespace character), so the
output is not "the comment part prefixed with the original line's indent". -/
theorem C8_counterexample :
    MAX_LEN < (stripCrlf c8tab).length ∧
      ((stripCrlf c8tab).dropWhile isSpaceC).headD 'x' ≠ '#' ∧
      (stripCrlf c8tab).takeWhile isSpaceC = ['\t'] ∧
      (splitInlineComment c8tab).map (fun s => s.take 2) = some [' ', '#'] := by
  refine ⟨by decide, by decide, by decide, by decide⟩

/-- C8 amended: for every line whose CRLF-stripped text is longer than 79,
contains `#` (first occurrence at index `k`), does not start (after leading
whitespace) with `#`, and has no internal newline, Rule B outputs exactly two
lines: first one space per leading-whitespace character of the original line,
then `"# "`, then the text after the marker with following whitespace
stripped; second the text before the marker, right-trimmed.  On the §8
example the two lines are exactly the ones given there (see the witness). -/
theorem C8_split (l : List Char) (k : Nat)
    (hlen : MAX_LEN < (stripCrlf l).length)
    (hk : (stripCrlf l).findIdx? (fun c => c == '#') = some k)
    (hnf : (((stripCrlf l).dropWhile isSpaceC).headD 'x' == '#') = false)
    (hnl : '\n' ∉ stripCrlf l) :
    (splitInlineComment l).map linesOf =
      some [sp (indentOf (stripCrlf l)) ++ '#' :: ' ' ::
              (((stripCrlf l).drop (k + 1)).dropWhile isSpaceC ++ ['\n']),
            rtrim ((stripCrlf l).take k) ++ ['\n']] := by
  rw [splitInlineComment]
  simp only [hk]
  rw [if_neg (not_le.mpr hlen), if_neg (by rw [hnf]; exact Bool.false_ne_true)]
  simp only [Option.map_some']
  have hnl1 : '\n' ∉ sp (indentOf (stripCrlf l)) ++ '#' :: ' ' ::
      ((stripCrlf l).drop (k + 1)).dropWhile isSpaceC := by
    intro hm
    rcases List.mem_append.mp hm with hm | hm
    · have := mem_takeWhile_pred (fun _ => true) (sp (indentOf (stripCrlf l)))
      rw [sp] at hm
      have := List.eq_of_mem_replicate hm
      exact absurd this (by decide)
    · rcases List.mem_cons.mp hm with hm | hm
      · exact absurd hm (by decide)
      · rcases List.mem_cons.mp hm with hm | hm
        · exact absurd hm (by decide)
        · exact hnl (List.mem_of_mem_drop (mem_dropWhile_sub isSpaceC _ '\n' hm))
  have hnl2 : '\n' ∉ rtrim ((stripCrlf l).take k) := by
    intro hm
    exact hnl (List.mem_of_mem_take (mem_rtrim _ '\n' hm))
  have hsplit : linesOf ((sp (indentOf (stripCrlf l)) ++ '#' :: ' ' ::
        (((stripCrlf l).drop (k + 1)).dropWhile isSpaceC)) ++
          '\n' :: (rtrim ((stripCrlf l).take k) ++ ['\n'])) =
      ((sp (indentOf (stripCrlf l)) ++ '#' :: ' ' ::
          (((stripCrlf l).drop (k + 1)).dropWhile isSpaceC)) ++ ['\n']) ::
        linesOf (rtrim ((stripCrlf l).take k) ++ ['\n']) :=
    linesOf_append_newline _ _ hnl1
  have hsplit2 : linesOf (rtrim ((stripCrlf l).take k) ++ ['\n']) =
      (rtrim ((stripCrlf l).take k) ++ ['\n']) :: linesOf [] := by
    have := linesOf_append_newline (rtrim ((stripCrlf l).take k)) [] hnl2
    simpa using this
  congr 1
  rw [show sp (indentOf (stripCrlf l)) ++ '#' :: ' ' ::
        ((((stripCrlf l).drop (k + 1)).dropWhile isSpaceC) ++
          '\n' :: (rtrim ((stripCrlf l).take k) ++ ['\n'])) =
      (sp (indentOf (stripCrlf l)) ++ '#' :: ' ' ::
        (((stripCrlf l).drop (k + 1)).dropWhile isSpaceC)) ++
          '\n' :: (rtrim ((stripCrlf l).take k) ++ ['\n']) by
    simp [List.append_assoc]]
  rw [hsplit, hsplit2]
  simp [List.append_assoc, linesOf]

/-- C8 witness: the §8 example yields exactly the two lines the spec gives. -/
theorem C8_split_witness :
    (splitInlineComment c8line).map linesOf =
      some ["    # sums the two inputs after validation and rounding adjustments are fully applied here\n".data,
        "    total = compute(x, y)\n".data] :=
  (C8_split c8line 27 (by decide) (by decide) (by decide) (by decide)).trans
    (by decide)

/-!
Claims C9 and C10.
-/

theorem collectClose_no_close :
    ∀ (rest : List (List Char)), (∀ r ∈ rest, findTriple r = none) →
      (collectClose rest).2 = rest.length := by
  intro rest
  induction rest with
  | nil => intro _; rfl
  | cons r rs ih =>
    intro h
    rw [collectClose, h r (by simp)]
    simp [ih (fun x hx => h x (by simp [hx]))]

theorem assembleBlock_ends_close (ind : Nat) (w : List Char) :
    ∃ pre, assembleBlock ind w = pre ++ (sp ind ++ (tq ++ ['\n'])) := by
  rw [assembleBlock]
  refine ⟨sp ind ++ tq ++ '\n' ::
    (((strtokNl w).map rtrim).map (fun t => sp ind ++ t ++ ['\n'])).flatten, ?_⟩
  simp [List.append_assoc]

/-- C9: when Rule D fires at an opener indented less than `MAX_LEN` (so the
available width is positive and the C wrapper terminates) and no subsequent
line contains the closing triple-quote marker, the consumed span runs to the
end of the file and the reconstructed replacement still ends with a closing
delimiter line at the block indent.  The indent bound keeps the statement in
the domain where the embedding coincides with the program: at indent exactly
`MAX_LEN` the C wrapper can recurse forever and no block is produced. -/
theorem C9_eof (l : List Char) (rest : List (List Char))
    (hop : (findTriple l).isSome = true)
    (_hind : indentOf l < MAX_LEN)
    (hrest : ∀ r ∈ rest, findTriple r = none) :
    ∃ blk, processTripleQuoteBlock l rest = some (blk, rest.length + 1) ∧
      ∃ pre, blk = pre ++ (sp (indentOf l) ++ (tq ++ ['\n'])) := by
  rcases Option.isSome_iff_exists.mp hop with ⟨k, hk⟩
  simp only [processTripleQuoteBlock, hk, collectClose_no_close rest hrest]
  exact ⟨_, rfl, assembleBlock_ends_close _ _⟩

/-- C9 witness. -/
theorem C9_eof_witness :
    ∃ blk, processTripleQuoteBlock c9opener ["xyz\n".data] =
        some (blk, (["xyz\n".data] : List (List Char)).length + 1) ∧
      ∃ pre, blk = pre ++ (sp (indentOf c9opener) ++ (tq ++ ['\n'])) :=
  C9_eof c9opener ["xyz\n".data] (by decide) (by decide) (by decide)

theorem collectClose_snd_spec :
    ∀ (rest : List (List Char)), (collectClose rest).2 = closeScanSpec rest := by
  intro rest
  induction rest with
  | nil => rfl
  | cons r rs ih =>
    rw [collectClose, closeScanSpec]
    cases hf : findTriple r with
    | some k => simp [containsTriple, hf]
    | none => simp [containsTriple, hf, ih]

/-- C10: when the opener line contains a second occurrence of the delimiter
after the first one, that second occurrence is not treated as the block's
close: the whole text after the first delimiter on the opener line,
including the second delimiter, is absorbed into the flattened content, and
the consumed span is 1 (the opener) plus the close scan over the subsequent
lines, which stops only at a later line containing the delimiter or at the
end of the file.  The opener's indent is required to be less than `MAX_LEN`
so that the available width is positive and the C wrapper terminates; at
indent exactly `MAX_LEN` the C program can recurse forever and never returns
the consumed count. -/
theorem C10_oneline (l : List Char) (rest : List (List Char)) (k : Nat)
    (hop : findTriple l = some k)
    (_hind : indentOf l < MAX_LEN)
    (habs : l.drop (k + 3) ≠ []) (htq : containsTriple (l.drop (k + 3)) = true) :
    tripleBlob l rest = l.drop (k + 3) ++ (' ' :: (collectClose rest).1) ∧
      containsTriple (tripleBlob l rest) = true ∧
      (processTripleQuoteBlock l rest).map Prod.snd =
        some (closeScanSpec rest + 1) := by
  have hblob : tripleBlob l rest =
      l.drop (k + 3) ++ (' ' :: (collectClose rest).1) := by
    rw [tripleBlob, hop]
    have hne : (l.drop (k + 3)).isEmpty = false := by
      cases hdrop : l.drop (k + 3) with
      | nil => exact absurd hdrop habs
      | cons a b => rfl
    simp [hne, List.append_assoc]
  refine ⟨hblob, ?_, ?_⟩
  · rw [hblob]
    rcases (containsTriple_iff _).mp htq with ⟨a, b, hab⟩
    apply (containsTriple_iff _).mpr
    refine ⟨a, b ++ (' ' :: (collectClose rest).1), ?_⟩
    rw [hab]
    simp [List.append_assoc]
  · rw [processTripleQuoteBlock, hop]
    simp [collectClose_snd_spec]

/-- C10 witness. -/
theorem C10_oneline_witness :
    tripleBlob c10opener c10rest =
        c10opener.drop (0 + 3) ++ (' ' :: (collectClose c10rest).1) ∧
      containsTriple (tripleBlob c10opener c10rest) = true ∧
      (processTripleQuoteBlock c10opener c10rest).map Prod.snd =
        some (closeScanSpec c10rest + 1) :=
  C10_oneline c10opener c10rest 0 (by decide) (by decide) (by decide) (by decide)

/-!
Claim C7.
-/

theorem headD_reverse (y : List Char) (d : Char) :
    y.reverse.headD d = y.getLastD d := by
  rw [List.headD_eq_head?, List.head?_reverse, List.getLastD_eq_getLast?]

theorem crlf_false_of_space (a : Char) (h : isSpaceC a = false) :
    (a == '\n' || a == '\r') = false := by
  by_cases hn : a = '\n'
  · subst hn; simp [isSpaceC] at h
  · by_cases hr : a = '\r'
    · subst hr; simp [isSpaceC] at h
    · simp [hn, hr]

theorem stripCrlf_append_newline (x : List Char) :
    stripCrlf (x ++ ['\n']) = stripCrlf x := by
  rw [stripCrlf, stripCrlf, List.reverse_append]
  rfl

theorem stripCrlf_eq_self (x : List Char)
    (h : isSpaceC (x.getLastD 'x') = false) : stripCrlf x = x := by
  rw [stripCrlf]
  cases hrev : x.reverse with
  | nil =>
    have hx : x = [] := by simpa using congrArg List.reverse hrev
    rw [hx]
    rfl
  | cons a t =>
    have ha : a = x.getLastD 'x' := by
      have h0 := headD_reverse x 'x'
      rw [hrev] at h0
      simpa using h0
    rw [List.dropWhile_cons,
      if_neg (by rw [ha, crlf_false_of_space _ h]; exact Bool.false_ne_true)]
    rw [← hrev, List.reverse_reverse]

theorem rtrim_eq_self (x : List Char)
    (h : isSpaceC (x.getLastD 'x') = false) : rtrim x = x := by
  rw [rtrim]
  cases hrev : x.reverse with
  | nil =>
    have hx : x = [] := by simpa using congrArg List.reverse hrev
    rw [hx]
    rfl
  | cons a t =>
    have ha : a = x.getLastD 'x' := by
      have h0 := headD_reverse x 'x'
      rw [hrev] at h0
      simpa using h0
    rw [List.dropWhile_cons, if_neg (by rw [ha, h]; exact Bool.false_ne_true)]
    rw [← hrev, List.reverse_reverse]

theorem findTripleAux_sp :
    ∀ (n : Nat) (r : List Char) (i : Nat),
      findTripleAux (sp n ++ (tq ++ r)) i = some (n + i) := by
  intro n
  induction n with
  | zero =>
    intro r i
    have h0 : sp 0 ++ (tq ++ r) = '"' :: ('"' :: ('"' :: r)) := by
      simp [sp, tq]
    rw [h0, findTripleAux,
      if_pos (show tq.isPrefixOf ('"' :: ('"' :: ('"' :: r))) = true from
        (isPrefixOf_iff_exists tq _).mpr ⟨r, rfl⟩)]
    rw [Nat.zero_add]
  | succ m ih =>
    intro r i
    have hstep : sp (m + 1) ++ (tq ++ r) = ' ' :: (sp m ++ (tq ++ r)) := by
      simp [sp, List.replicate_succ]
    rw [hstep, findTripleAux]
    rw [if_neg (by
      rw [show tq.isPrefixOf (' ' :: (sp m ++ (tq ++ r))) = false from rfl]
      exact Bool.false_ne_true)]
    rw [ih r (i + 1)]
    congr 1
    omega

theorem findTriple_sp_tq (n : Nat) (r : List Char) :
    findTriple (sp n ++ (tq ++ r)) = some n := by
  rw [findTriple, findTripleAux_sp]
  rfl

/-- The opening/closing delimiter line in the left-associated shape used by
`blockLines` and `assembleBlock`. -/
theorem findTriple_closer (n : Nat) :
    findTriple (sp n ++ tq ++ ['\n']) = some n := by
  rw [List.append_assoc]
  exact findTriple_sp_tq n ['\n']

theorem indentOf_sp_cons (n : Nat) (c0 : Char) (cs : List Char)
    (h : isSpaceC c0 = false) : indentOf (sp n ++ c0 :: cs) = n := by
  rw [indentOf]
  induction n with
  | zero =>
    have h0 : sp 0 ++ c0 :: cs = c0 :: cs := by simp [sp]
    rw [h0, List.takeWhile_cons, if_neg (by rw [h]; exact Bool.false_ne_true)]
    rfl
  | succ m ih =>
    have hstep : sp (m + 1) ++ c0 :: cs = ' ' :: (sp m ++ c0 :: cs) := by
      simp [sp, List.replicate_succ]
    rw [hstep, List.takeWhile_cons,
      if_pos (show isSpaceC ' ' = true from rfl), List.length_cons, ih]

theorem indentOf_closer (n : Nat) : indentOf (sp n ++ tq ++ ['\n']) = n := by
  have h : sp n ++ tq ++ ['\n'] = sp n ++ '"' :: ('"' :: ('"' :: ['\n'])) := by
    simp [tq]
  rw [h]
  exact indentOf_sp_cons n '"' _ (by decide)

theorem strtokNlF_nil (fuel : Nat) : strtokNlF fuel [] = [] := by
  cases fuel <;> rfl

theorem strtokNl_single (x : List Char) (h1 : x ≠ []) (h2 : '\n' ∉ x) :
    strtokNl x = [x] := by
  rw [strtokNl]
  cases x with
  | nil => exact absurd rfl h1
  | cons a t =>
    rw [List.length_cons, strtokNlF]
    rw [if_neg (by
      simp only [beq_iff_eq]
      exact fun hh => h2 (by simp [hh]))]
    have htw : t.takeWhile (fun d => !(d == '\n')) = t :=
      List.takeWhile_eq_self_iff.mpr (by
        intro d hd
        simp only [Bool.not_eq_true', beq_eq_false_iff_ne]
        exact fun hh => h2 (List.mem_cons.mpr (Or.inr (hh ▸ hd))))
    have hdw : t.dropWhile (fun d => !(d == '\n')) = [] :=
      List.dropWhile_eq_nil_iff.mpr (by
        intro d hd
        simp only [Bool.not_eq_true', beq_eq_false_iff_ne]
        exact fun hh => h2 (List.mem_cons.mpr (Or.inr (hh ▸ hd))))
    rw [htw, hdw, strtokNlF_nil]

theorem ltrim_junk (junk c tail : List Char)
    (hjunk : ∀ a ∈ junk, isSpaceC a = true) (hc : isSpaceC (c.headD 'x') = false)
    (hcne : c ≠ []) : ltrim (junk ++ (c ++ tail)) = c ++ tail := by
  rw [ltrim, dropWhile_append_all isSpaceC junk (c ++ tail) hjunk]
  cases c with
  | nil => exact absurd rfl hcne
  | cons a t =>
    rw [List.cons_append, List.dropWhile_cons]
    rw [if_neg (by
      have : isSpaceC a = false := by simpa using hc
      rw [this]; exact Bool.false_ne_true)]

theorem wrapTextC_short (t : List Char) (w : Int) (h0 : 0 ≤ w)
    (hlen : (t.length : Int) ≤ w) : wrapTextC t w = [t] := by
  rw [wrapTextC, if_neg (not_lt.mpr h0), wrap_text]
  have hle : t.length ≤ w.toNat := by omega
  cases ht : t.length with
  | zero => rw [wrapTextF]
  | succ m =>
    rw [wrapTextF, if_pos (by rw [ht] at hle ⊢; exact hle)]

/-- The flattened text of a single-content block as collected by Rule D. -/
theorem collectClose_single (ind : Nat) (c : List Char) (h1 : c ≠ [])
    (h3 : isSpaceC (c.getLastD 'x') = false)
    (h5 : findTriple (sp ind ++ c ++ ['\n']) = none) :
    collectClose [sp ind ++ c ++ ['\n'], sp ind ++ tq ++ ['\n']] =
      ((sp ind ++ c) ++ ' ' ::
        (if 0 < ind then sp ind ++ [' '] else []), 2) := by
  have hstrip : stripCrlf (sp ind ++ c ++ ['\n']) = sp ind ++ c := by
    rw [stripCrlf_append_newline]
    apply stripCrlf_eq_self
    cases hrev : c.reverse with
    | nil => exact absurd (by simpa using congrArg List.reverse hrev) h1
    | cons a t =>
      have hrev2 : (sp ind ++ c).reverse = a :: (t ++ (sp ind).reverse) := by
        rw [List.reverse_append, hrev, List.cons_append]
      have hget : (sp ind ++ c).getLastD 'x' = a := by
        rw [← headD_reverse, hrev2]
        rfl
      have hget2 : c.getLastD 'x' = a := by
        rw [← headD_reverse, hrev]
        rfl
      rw [hget, ← hget2]
      exact h3
  have hcloser := findTriple_closer ind
  have htake : (sp ind ++ tq ++ ['\n']).take ind = sp ind := by
    rw [List.append_assoc]
    exact List.take_left' (by simp [sp])
  have hlen2 : (sp ind).length = ind := by simp [sp]
  simp only [collectClose, h5, hcloser, hstrip, htake, hlen2]

/-- Applying Rule D once to a block with a single well-behaved content line
that fits within the available width reproduces the very same block text
(stated with the closing line's collected trail `T` abstract). -/
theorem reflow_single_block_aux (ind : Nat) (c T : List Char)
    (h1 : c ≠ []) (h2 : isSpaceC (c.headD 'x') = false)
    (h3 : isSpaceC (c.getLastD 'x') = false) (h4 : '\n' ∉ c)
    (h6 : 3 * ind + c.length + 4 ≤ MAX_LEN)
    (hTmem : ∀ a ∈ T, a = ' ') (hTlen : T.length ≤ ind + 1)
    (hcc : collectClose [sp ind ++ c ++ ['\n'], sp ind ++ tq ++ ['\n']] =
      ((sp ind ++ c) ++ ' ' :: T, 2)) :
    reflowOnce (blockLines ind [c]) =
      (sp ind ++ tq ++ ['\n']) ++
        ((sp ind ++ c ++ ['\n']) ++ (sp ind ++ tq ++ ['\n'])) := by
  have hfind : findTriple (sp ind ++ tq ++ ['\n']) = some ind :=
    findTriple_closer ind
  have hind : indentOf (sp ind ++ tq ++ ['\n']) = ind :=
    indentOf_closer ind
  have hdrop : (sp ind ++ tq ++ ['\n']).drop (ind + 3) = ['\n'] :=
    List.drop_left' (by simp [sp, tq])
  have hblob : tripleBlob (sp ind ++ tq ++ ['\n'])
      [sp ind ++ c ++ ['\n'], sp ind ++ tq ++ ['\n']] =
      ('\n' :: ' ' :: sp ind) ++ (c ++ (' ' :: T)) := by
    simp only [tripleBlob, hfind, hdrop, hcc]
    simp [List.append_assoc]
  have hbl : blockLines ind [c] = (sp ind ++ tq ++ ['\n']) ::
      [sp ind ++ c ++ ['\n'], sp ind ++ tq ++ ['\n']] := by
    simp [blockLines]
  rw [hbl, reflowOnce]
  simp only [processTripleQuoteBlock, hfind, hind, hblob]
  have hwrap : wrapTextC (('\n' :: ' ' :: sp ind) ++ (c ++ (' ' :: T)))
      ((MAX_LEN : Int) - ind) =
      [('\n' :: ' ' :: sp ind) ++ (c ++ (' ' :: T))] := by
    apply wrapTextC_short
    · rw [MAX_LEN] at h6 ⊢; omega
    · have hlen3 : (('\n' :: ' ' :: sp ind) ++ (c ++ (' ' :: T))).length ≤
          2 * ind + c.length + 4 := by
        simp [sp]
        omega
      rw [MAX_LEN] at h6 ⊢
      omega
  rw [hwrap, joinNl]
  have hltrim : ltrim (('\n' :: ' ' :: sp ind) ++ (c ++ (' ' :: T))) =
      c ++ (' ' :: T) := by
    apply ltrim_junk _ _ _ ?_ h2 h1
    intro a ha
    rcases List.mem_cons.mp ha with rfl | ha
    · rfl
    · rcases List.mem_cons.mp ha with rfl | ha
      · rfl
      · rw [List.eq_of_mem_replicate ha]
        rfl
  rw [hltrim, assembleBlock]
  have hstrtok : strtokNl (c ++ (' ' :: T)) = [c ++ (' ' :: T)] := by
    apply strtokNl_single
    · intro hcontra
      have hlc := congrArg List.length hcontra
      simp at hlc
    · intro hm
      rcases List.mem_append.mp hm with hm | hm
      · exact h4 hm
      · rcases List.mem_cons.mp hm with hm | hm
        · exact absurd hm (by decide)
        · have := hTmem '\n' hm
          exact absurd this (by decide)
  rw [hstrtok, List.map_cons]
  have hrtrim : rtrim (c ++ (' ' :: T)) = c := by
    rw [rtrim_append_spaces c _ (by
      intro a ha
      rcases List.mem_cons.mp ha with rfl | ha
      · rfl
      · rw [hTmem a ha]; rfl)]
    exact rtrim_eq_self c h3
  rw [hrtrim]
  simp [List.append_assoc]

theorem reflow_single_block (ind : Nat) (c : List Char)
    (h1 : c ≠ []) (h2 : isSpaceC (c.headD 'x') = false)
    (h3 : isSpaceC (c.getLastD 'x') = false) (h4 : '\n' ∉ c)
    (h5 : findTriple (sp ind ++ c ++ ['\n']) = none)
    (h6 : 3 * ind + c.length + 4 ≤ MAX_LEN) :
    reflowOnce (blockLines ind [c]) =
      (sp ind ++ tq ++ ['\n']) ++
        ((sp ind ++ c ++ ['\n']) ++ (sp ind ++ tq ++ ['\n'])) := by
  refine reflow_single_block_aux ind c
      (if 0 < ind then sp ind ++ [' '] else []) h1 h2 h3 h4 h6 ?_ ?_
      (collectClose_single ind c h1 h3 h5)
  · intro a ha
    by_cases hpos : 0 < ind
    · rw [if_pos hpos] at ha
      rcases List.mem_append.mp ha with ha | ha
      · exact List.eq_of_mem_replicate ha
      · simpa using ha
    · rw [if_neg hpos] at ha
      simp at ha
  · by_cases hpos : 0 < ind
    · rw [if_pos hpos]; simp [sp]
    · rw [if_neg hpos]; simp

theorem linesOf_blockFlat (ind : Nat) (c : List Char) (h4 : '\n' ∉ c) :
    linesOf ((sp ind ++ tq ++ ['\n']) ++
        ((sp ind ++ c ++ ['\n']) ++ (sp ind ++ tq ++ ['\n']))) =
      blockLines ind [c] := by
  have hnl_sptq : '\n' ∉ sp ind ++ tq := by
    intro hm
    rcases List.mem_append.mp hm with hm | hm
    · exact absurd (List.eq_of_mem_replicate hm) (by decide)
    · exact absurd hm (by decide)
  have hnl_spc : '\n' ∉ sp ind ++ c := by
    intro hm
    rcases List.mem_append.mp hm with hm | hm
    · exact absurd (List.eq_of_mem_replicate hm) (by decide)
    · exact h4 hm
  have e : (sp ind ++ tq ++ ['\n']) ++
      ((sp ind ++ c ++ ['\n']) ++ (sp ind ++ tq ++ ['\n'])) =
      (sp ind ++ tq) ++ '\n' ::
        ((sp ind ++ c) ++ '\n' :: ((sp ind ++ tq) ++ '\n' :: [])) := by
    simp [List.append_assoc]
  rw [e, linesOf_append_newline _ _ hnl_sptq, linesOf_append_newline _ _ hnl_spc,
    linesOf_append_newline _ _ hnl_sptq]
  simp [blockLines, linesOf, List.append_assoc]

/-- C7 counterexample: the block with content lines `aaa…a(75)␣␣b,` and
`cc dd` at indent 0 is correctly wrapped at width 79 (re-wrapping its joined
content reproduces it exactly), yet the BlockReflower's second pass differs
from its first: pass one yields content lines `a…a` and `b, cc dd`, pass two
yields `a…a b` and `cc dd`. -/
theorem C7_counterexample :
    correctlyWrappedBlock 0 [c7L1, c7L2] ∧
      reflowOnce (linesOf (reflowOnce (blockLines 0 [c7L1, c7L2]))) ≠
        reflowOnce (blockLines 0 [c7L1, c7L2]) := by
  constructor
  · refine ⟨by decide, by decide, by decide⟩
  · decide

/-- C7 amended: Rule D is not idempotent in general (see the counterexample,
at indent 0), but for a block with a single content line — nonempty, no
leading or trailing whitespace, no newline, no triple-quote token, and short
enough that the flattened blob including the absorbed indent fits within the
available width (`3·indent + len + 4 ≤ 79`) — re-applying the reflower to its
output is byte-identical. -/
theorem C7_idempotent_short (ind : Nat) (c : List Char)
    (h1 : c ≠ []) (h2 : isSpaceC (c.headD 'x') = false)
    (h3 : isSpaceC (c.getLastD 'x') = false) (h4 : '\n' ∉ c)
    (h5 : findTriple (sp ind ++ c ++ ['\n']) = none)
    (h6 : 3 * ind + c.length + 4 ≤ MAX_LEN) :
    reflowOnce (linesOf (reflowOnce (blockLines ind [c]))) =
      reflowOnce (blockLines ind [c]) := by
  rw [reflow_single_block ind c h1 h2 h3 h4 h5 h6, linesOf_blockFlat ind c h4,
    reflow_single_block ind c h1 h2 h3 h4 h5 h6]

/-- C7 witness. -/
theorem C7_idempotent_short_witness :
    reflowOnce (linesOf (reflowOnce (blockLines 4 ["hello.".data]))) =
      reflowOnce (blockLines 4 ["hello.".data]) :=
  C7_idempotent_short 4 ("hello.".data) (by decide) (by decide) (by decide)
    (by decide) (by decide) (by decide)

/-- C5 witness. -/
theorem C5_ruleD_guard_witness :
    (tq.isPrefixOf (("  \"\"\" hi\n".data).dropWhile isSpaceC) = true ↔
      ∃ pre rest, (∀ c ∈ pre, isSpaceC c = true) ∧
        "  \"\"\" hi\n".data = pre ++ (tq ++ rest)) ∧
    (tq.isPrefixOf (("  \"\"\" hi\n".data).dropWhile isSpaceC) = true →
      indentOf ("  \"\"\" hi\n".data) < MAX_LEN →
      (processTripleQuoteBlock ("  \"\"\" hi\n".data) []).isSome = true) :=
  C5_ruleD_guard ("  \"\"\" hi\n".data) []

end Reflow
